import Mathlib

/-!
Shallow embedding of the Monte-Carlo threshold-crossing analysis from
`analyze-exchange-rate.py` and `analyze-upward-threshold-with-condition.py`.

Modelling conventions:
* A bar's timestamp is a natural number counting hours since an epoch; the
  calendar date extracted by `data.index.date` is therefore `ts / 24`.
* Close prices are rationals (the Python floats are modelled exactly).
* `np.random.randint(0, mid_point)` draws are passed in explicitly as a list
  of naturals, consumed one per trial-eligible day, mirroring the stream of
  calls the source makes inside its day loop.
* The dispersion `overall_stdev = np.std(all_prices)` is the square root of
  the population variance; since that square root is irrational in general,
  the simulation functions take the dispersion value as an explicit rational
  parameter `σ`, and the exact square of the computed dispersion is exposed
  as `overall_stdev_sq`.  Python exceptions (`ZeroDivisionError`) are
  modelled by `Option`: `none` means the call raises.
-/

namespace StockCalc

/-- One OHLC observation; only the fields the core reads are modelled.
`ts` is the bar's timestamp in hours since an epoch. -/
structure Bar where
  ts : Nat
  close : ℚ
deriving DecidableEq, Repr

/-- Calendar date of a bar, as extracted by `data.index.date` from the
hourly DatetimeIndex: the day number containing hour `ts`. -/
def dateOf (b : Bar) : Nat := b.ts / 24

/-- Embeds `group_by_trading_day` (same body in both scripts):
`dict(tuple(data.groupby(data.index.date)))`.  Pandas `groupby` with the
default `sort=True` enumerates the distinct keys in ascending order and,
for each key, keeps the rows with that key in their original order. -/
def group_by_trading_day (data : List Bar) : List (Nat × List Bar) :=
  (List.insertionSort (· ≤ ·) (data.map dateOf).dedup).map
    (fun d => (d, data.filter (fun b => dateOf b = d)))

/-- Concatenation of the per-day bar lists of a grouped series, in the
order the groups are listed. -/
def concatDays (gs : List (Nat × List Bar)) : List Bar :=
  gs.foldr (fun g acc => g.2 ++ acc) []

/-- The loaded table: its rows plus the optional derived `Date` column
(`data['Date'] = data.index.date` adds it in place). -/
structure Frame where
  bars : List Bar
  dateCol : Option (List Nat)
deriving DecidableEq, Repr

/-- Embeds the in-place mutation `data['Date'] = data.index.date`. -/
def add_date_column (f : Frame) : Frame :=
  { f with dateCol := some (f.bars.map dateOf) }

/-- Embeds `group_by_trading_day` at the level of the mutable table: the
function first adds the derived `Date` column to its argument and then
groups by calendar date; the pair returned is (table after the call,
grouping result). -/
def group_by_trading_day_frame (f : Frame) : Frame × List (Nat × List Bar) :=
  let f2 := add_date_column f
  (f2, group_by_trading_day f2.bars)

/-- Arithmetic mean, as `np.mean`; `mean [] = 0` here while `np.mean([])`
is NaN — no claim depends on the empty case. -/
def mean (xs : List ℚ) : ℚ := xs.sum / xs.length

/-- Population variance of a sample, i.e. the square of `np.std`:
`np.std` computes `sqrt(mean((x - mean(x))²))` with denominator `N`. -/
def pop_variance (xs : List ℚ) : ℚ :=
  ((xs.map (fun x => (x - mean xs) ^ 2)).sum) / xs.length

/-- Embeds the pooling loop
`for day_data in daily_groups.values(): all_prices.extend(day_data['Close'].values)`:
the close prices of every day, concatenated in group order.  Days are
represented by their close-price lists. -/
def all_prices (groups : List (List ℚ)) : List ℚ := groups.foldr (· ++ ·) []

/-- The exact square of `overall_stdev = np.std(all_prices)`: the computed
dispersion statistic is `Real.sqrt` of this rational. -/
def overall_stdev_sq (groups : List (List ℚ)) : ℚ := pop_variance (all_prices groups)

/-- Embeds the day gate `if len(day_data) > 1` (need at least 2 points). -/
def eligible (day : List ℚ) : Bool := decide (1 < day.length)

/-- Embeds one forward-crossing test for one day (`day` is the day's close
prices, `r` the drawn first-half index, `σ` the dispersion statistic):
`threshold = day[r] + multiplier * σ`, and the test is
`any(price > threshold for price in day[r+1:])`. -/
def crossed (day : List ℚ) (r : Nat) (multiplier σ : ℚ) : Bool :=
  (day.drop (r + 1)).any (fun p => decide (day.getD r 0 + multiplier * σ < p))

/-- Per-day count contribution of the unconditional variant. -/
def day_hit (day : List ℚ) (r : Nat) (multiplier σ : ℚ) : Nat :=
  if crossed day r multiplier σ then 1 else 0

/-- Embeds the inner day loop of `calculate_threshold_crossing` in
`analyze-exchange-rate.py` for one simulation run: walk the days in group
order, and for each day with more than one bar consume one random draw `r`
and add 1 to `count` when the day crosses.  Ineligible days consume no
draw, exactly as the source only calls `np.random.randint` inside the
`len(day_data) > 1` branch. -/
def run_count (multiplier σ : ℚ) : List (List ℚ) → List Nat → Nat
  | [], _ => 0
  | day :: rest, draws =>
    if eligible day then
      day_hit day (draws.headD 0) multiplier σ + run_count multiplier σ rest draws.tail
    else
      run_count multiplier σ rest draws

/-- Embeds `results.append((count / total_days) * 100)` with
`total_days = len(daily_groups)`; total function (division by zero yields
0 in `ℚ`), used under a `groups ≠ []` guard by the pipeline. -/
def run_pct (groups : List (List ℚ)) (multiplier σ : ℚ) (draws : List Nat) : ℚ :=
  (run_count multiplier σ groups draws / (groups.length : ℚ)) * 100

/-- The per-run percentages of the unconditional variant, one entry per
simulation run; `drawss` holds one draw stream per run. -/
def sim_results (groups : List (List ℚ)) (multiplier σ : ℚ) (drawss : List (List Nat)) : List ℚ :=
  drawss.map (run_pct groups multiplier σ)

/-- Embeds `calculate_threshold_crossing` of `analyze-exchange-rate.py`.
The source computes `overall_stdev = np.std(all_prices)` once, runs
`num_simulations` simulation runs, and returns
`(np.mean(results), overall_stdev)`.  Here the dispersion value used in
the thresholds is the parameter `σ`, the returned dispersion component is
its exact square `overall_stdev_sq groups`, and `none` models the
`ZeroDivisionError` raised by `(count / total_days) * 100` when
`total_days = 0` and at least one run executes. -/
def calculate_threshold_crossing (groups : List (List ℚ)) (multiplier σ : ℚ)
    (drawss : List (List Nat)) : Option (ℚ × ℚ) :=
  match groups with
  | [] =>
    match drawss with
    | [] => some (mean (sim_results [] multiplier σ []), overall_stdev_sq [])
    | _ :: _ => none
  | g :: gs =>
    some (mean (sim_results (g :: gs) multiplier σ drawss), overall_stdev_sq (g :: gs))

/-- Outcome of the side-constrained trial of
`analyze-upward-threshold-with-condition.py`. -/
inductive TradeOutcome where
  | skipped
  | good
  | bad
deriving DecidableEq, Repr

/-- Embeds the classification branch of the conditional variant:
`if first_half_price > start_day_price: no_action_count += 1
elif any(price > threshold ...): good_trade_count += 1
else: bad_trade_count += 1`, with `start_day_price = day[0]`. -/
def classify (day : List ℚ) (r : Nat) (multiplier σ : ℚ) : TradeOutcome :=
  if day.getD 0 0 < day.getD r 0 then .skipped
  else if crossed day r multiplier σ then .good
  else .bad

/-- Counter increments produced by one simulation run of the conditional
variant: the unconditional crossing count plus the good/bad/skipped
tallies. -/
structure CondTally where
  cnt : Nat
  good : Nat
  bad : Nat
  skipped : Nat
deriving DecidableEq, Repr

/-- Pointwise sum of tallies. -/
def CondTally.add (a b : CondTally) : CondTally :=
  ⟨a.cnt + b.cnt, a.good + b.good, a.bad + b.bad, a.skipped + b.skipped⟩

/-- The zero tally. -/
def CondTally.zero : CondTally := ⟨0, 0, 0, 0⟩

/-- Counter increments contributed by a single eligible day with draw `r`. -/
def day_tally (day : List ℚ) (r : Nat) (multiplier σ : ℚ) : CondTally :=
  { cnt := day_hit day r multiplier σ
    good := if classify day r multiplier σ = .good then 1 else 0
    bad := if classify day r multiplier σ = .bad then 1 else 0
    skipped := if classify day r multiplier σ = .skipped then 1 else 0 }

/-- Embeds the inner day loop of `calculate_threshold_crossing` in
`analyze-upward-threshold-with-condition.py` for one simulation run: both
the unconditional count and the good/bad/skipped branch reuse the same
draw `r`; ineligible days consume no draw and touch no counter. -/
def cond_run (multiplier σ : ℚ) : List (List ℚ) → List Nat → CondTally
  | [], _ => .zero
  | day :: rest, draws =>
    if eligible day then
      (day_tally day (draws.headD 0) multiplier σ).add
        (cond_run multiplier σ rest draws.tail)
    else
      cond_run multiplier σ rest draws

/-- The counters accumulated across all simulation runs: in the source,
`good_trade_count`, `bad_trade_count` and `no_action_count` are initialised
before the `for sim in range(num_simulations)` loop, so they pool over every
run and every day. -/
def cond_totals (groups : List (List ℚ)) (multiplier σ : ℚ)
    (drawss : List (List Nat)) : CondTally :=
  (drawss.map (cond_run multiplier σ groups)).foldr CondTally.add .zero

/-- The per-run percentage `(count / total_days) * 100` of the conditional
script, whose `count` is the unconditional crossing counter of its own day
loop. -/
def cond_run_pct (groups : List (List ℚ)) (multiplier σ : ℚ) (draws : List Nat) : ℚ :=
  ((cond_run multiplier σ groups draws).cnt / (groups.length : ℚ)) * 100

/-- The per-run percentages of the conditional script, one per run. -/
def cond_sim_results (groups : List (List ℚ)) (multiplier σ : ℚ)
    (drawss : List (List Nat)) : List ℚ :=
  drawss.map (cond_run_pct groups multiplier σ)

/-- Result record of the conditional variant: the source returns
`(good_pct, overall_stdev)` and prints `np.mean(results)` as the figure
"pct for all"; the printed secondary figure is modelled as a field, and the
dispersion component as its exact square. -/
structure CondResult where
  good_pct : ℚ
  crossed_mean : ℚ
  stdev_sq : ℚ
deriving DecidableEq, Repr

/-- Embeds `calculate_threshold_crossing` of
`analyze-upward-threshold-with-condition.py`.  `none` models the
`ZeroDivisionError` raised either by `(count / total_days) * 100` when the
grouping is empty and a run executes, or by
`good_trade_count / (good_trade_count + bad_trade_count)` when no day of
any run was classified good or bad; the first case forces the second, so
the guard is `good + bad = 0`. -/
def cond_calculate_threshold_crossing (groups : List (List ℚ)) (multiplier σ : ℚ)
    (drawss : List (List Nat)) : Option CondResult :=
  if (cond_totals groups multiplier σ drawss).good
      + (cond_totals groups multiplier σ drawss).bad = 0 then none
  else some
    { good_pct := ((cond_totals groups multiplier σ drawss).good : ℚ)
        / (((cond_totals groups multiplier σ drawss).good : ℚ)
           + ((cond_totals groups multiplier σ drawss).bad : ℚ)) * 100
      crossed_mean := mean (cond_sim_results groups multiplier σ drawss)
      stdev_sq := overall_stdev_sq groups }

example : crossed [10, 10, 10, 10, 100] 0 0 0 = true := by norm_num [crossed]
example : crossed [10, 10] 0 0 0 = false := by norm_num [crossed]
example : run_count 0 0 [[1], [1, 2]] [0] = 1 := by
  norm_num [run_count, eligible, day_hit, crossed]
example : run_pct [[1], [1, 2]] 0 0 [0] = 50 := by
  norm_num [run_pct, run_count, eligible, day_hit, crossed]
example : classify [5, 10, 1, 1] 1 0 0 = .skipped := by norm_num [classify]
example : cond_calculate_threshold_crossing [[1]] 1 0 [[0]] = none := by
  norm_num [cond_calculate_threshold_crossing, cond_totals, cond_run, eligible,
    CondTally.add, CondTally.zero]

/-! ### Helper lemmas -/

theorem crossed_anti_of_multiplier_le {day : List ℚ} {r : Nat} {m1 m2 σ : ℚ}
    (hσ : 0 ≤ σ) (hm : m1 ≤ m2) (h : crossed day r m2 σ = true) :
    crossed day r m1 σ = true := by
  unfold crossed at h ⊢
  rw [List.any_eq_true] at h ⊢
  obtain ⟨p, hp, hdec⟩ := h
  rw [decide_eq_true_eq] at hdec
  refine ⟨p, hp, ?_⟩
  rw [decide_eq_true_eq]
  have hmul : m1 * σ ≤ m2 * σ := mul_le_mul_of_nonneg_right hm hσ
  linarith

theorem day_hit_anti_of_multiplier_le (day : List ℚ) (r : Nat) {m1 m2 σ : ℚ}
    (hσ : 0 ≤ σ) (hm : m1 ≤ m2) :
    day_hit day r m2 σ ≤ day_hit day r m1 σ := by
  unfold day_hit
  cases hc : crossed day r m2 σ with
  | false => simp [hc]
  | true =>
    rw [crossed_anti_of_multiplier_le hσ hm hc]

theorem run_count_anti_of_multiplier_le {m1 m2 σ : ℚ} (hσ : 0 ≤ σ) (hm : m1 ≤ m2) :
    ∀ (groups : List (List ℚ)) (draws : List Nat),
      run_count m2 σ groups draws ≤ run_count m1 σ groups draws := by
  intro groups
  induction groups with
  | nil => intro draws; simp [run_count]
  | cons day rest ih =>
    intro draws
    cases h : eligible day with
    | false => simp only [run_count, h]; exact ih draws
    | true =>
      simp only [run_count, h, if_true]
      exact Nat.add_le_add (day_hit_anti_of_multiplier_le day (draws.headD 0) hσ hm)
        (ih draws.tail)

theorem run_count_filter_eligible (m σ : ℚ) :
    ∀ (groups : List (List ℚ)) (draws : List Nat),
      run_count m σ (groups.filter eligible) draws = run_count m σ groups draws := by
  intro groups
  induction groups with
  | nil => intro draws; rfl
  | cons day rest ih =>
    intro draws
    cases h : eligible day with
    | false => simp only [List.filter_cons, h, run_count]; exact ih draws
    | true => simp only [List.filter_cons, h, if_true, run_count]; rw [ih draws.tail]

/-! ### C1 -/

/-- C1: For a day with `n ≥ 2` bars and any reference index `r` in the first
half (`0 ≤ r < n / 2`), the trial outcome is crossed iff some bar at an index
in `r+1 .. n-1` has close strictly greater than
`close[r] + multiplier * dispersion`; the offset is added to the reference
price. -/
theorem crossed_iff_later_close_above_threshold
    (day : List ℚ) (r : Nat) (multiplier σ : ℚ)
    (hn : 2 ≤ day.length) (hr : r < day.length / 2) :
    crossed day r multiplier σ = true ↔
      ∃ i, r + 1 ≤ i ∧ i < day.length ∧
        day.getD r 0 + multiplier * σ < day.getD i 0 := by
  unfold crossed
  rw [List.any_eq_true]
  constructor
  · rintro ⟨p, hp, hdec⟩
    rw [decide_eq_true_eq] at hdec
    rw [List.mem_iff_getElem] at hp
    obtain ⟨j, hj, hpe⟩ := hp
    have hj2 : r + 1 + j < day.length := by
      rw [List.length_drop] at hj; omega
    refine ⟨r + 1 + j, by omega, hj2, ?_⟩
    rw [List.getD_eq_getElem day 0 hj2]
    rw [List.getElem_drop] at hpe
    rw [hpe]
    exact hdec
  · rintro ⟨i, hri, hil, hlt⟩
    obtain ⟨j, rfl⟩ : ∃ j, i = r + 1 + j := ⟨i - (r + 1), by omega⟩
    have hj : j < (day.drop (r + 1)).length := by
      rw [List.length_drop]; omega
    refine ⟨(day.drop (r + 1))[j], List.getElem_mem hj, ?_⟩
    rw [decide_eq_true_eq, List.getElem_drop]
    rw [← List.getD_eq_getElem day 0 hil]
    exact hlt

/-- Witness for C1: the spec's own example day `[10, 10, 10, 10, 100]` with
`r = 0` and zero offset. -/
theorem crossed_iff_later_close_above_threshold_witness :
    crossed [10, 10, 10, 10, 100] 0 0 0 = true ↔
      ∃ i, 0 + 1 ≤ i ∧ i < ([(10 : ℚ), 10, 10, 10, 100]).length ∧
        ([(10 : ℚ), 10, 10, 10, 100]).getD 0 0 + 0 * 0
          < ([(10 : ℚ), 10, 10, 10, 100]).getD i 0 :=
  crossed_iff_later_close_above_threshold [10, 10, 10, 10, 100] 0 0 0
    (by norm_num) (by norm_num)

/-! ### C2 -/

/-- Counterexample to C2 as stated: with one 1-bar day and one 2-bar day the
run percentage is 50, not the 100 that dividing by the count of trial-eligible
days would give. -/
theorem run_pct_eligible_denominator_counterexample :
    run_pct [[1], [1, 2]] 0 0 [0]
      ≠ 100 * (run_count 0 0 [[1], [1, 2]] [0] : ℚ)
          / (([[(1 : ℚ)], [1, 2]].filter eligible).length : ℚ) := by
  norm_num [run_pct, run_count, eligible, day_hit, crossed]

/-- C2 (amended): the per-run percentage is `100 × crossed-count / total_days`
where `total_days = len(daily_groups)` counts every day, including days with
fewer than 2 bars; such days contribute nothing to the numerator (the crossed
count over the eligible days alone is the same), and the run mean is the mean
of these per-run percentages. -/
theorem run_pct_total_days_denominator (groups : List (List ℚ)) (m σ : ℚ)
    (draws : List Nat) (drawss : List (List Nat)) (h : groups ≠ []) :
    run_pct groups m σ draws
        = 100 * (run_count m σ groups draws : ℚ) / (groups.length : ℚ)
      ∧ run_count m σ (groups.filter eligible) draws = run_count m σ groups draws
      ∧ calculate_threshold_crossing groups m σ drawss
          = some (mean (sim_results groups m σ drawss), overall_stdev_sq groups) := by
  refine ⟨?_, run_count_filter_eligible m σ groups draws, ?_⟩
  · unfold run_pct; ring
  · cases groups with
    | nil => exact absurd rfl h
    | cons g gs => rfl

/-- Witness for C2 (amended) at a concrete grouping with an ineligible day. -/
theorem run_pct_total_days_denominator_witness :
    run_pct [[1], [1, 2]] 0 0 [0]
        = 100 * (run_count 0 0 [[1], [1, 2]] [0] : ℚ) / (([[(1 : ℚ)], [1, 2]]).length : ℚ)
      ∧ run_count 0 0 ([[(1 : ℚ)], [1, 2]].filter eligible) [0] = run_count 0 0 [[1], [1, 2]] [0]
      ∧ calculate_threshold_crossing [[1], [1, 2]] 0 0 [[0]]
          = some (mean (sim_results [[1], [1, 2]] 0 0 [[0]]), overall_stdev_sq [[1], [1, 2]]) :=
  run_pct_total_days_denominator [[1], [1, 2]] 0 0 [0] [[0]] (by simp)

/-! ### C3 -/

/-- Counterexample to C3 as stated: on a series with zero bars the
day-partitioning step does not abort — it returns the empty grouping (there
is no `EmptySeriesError` in the code) — and the run only fails later, inside
`calculate_threshold_crossing`. -/
theorem empty_series_partition_counterexample :
    group_by_trading_day [] = []
      ∧ calculate_threshold_crossing [] 1 0 [[0]] = none := by
  exact ⟨rfl, rfl⟩

/-- C3 (amended): on a series with zero bars, `group_by_trading_day` succeeds
and returns an empty grouping; the run then fails downstream with a
`ZeroDivisionError` (modelled by `none`) in `calculate_threshold_crossing`,
where `(count / total_days) * 100` divides by `total_days = 0`, provided at
least one simulation run executes. -/
theorem empty_series_fails_downstream (data : List Bar) (m σ : ℚ)
    (drawss : List (List Nat)) (hd : data = []) (hs : drawss ≠ []) :
    group_by_trading_day data = []
      ∧ calculate_threshold_crossing
          ((group_by_trading_day data).map (fun g => g.2.map Bar.close)) m σ drawss
          = none := by
  subst hd
  refine ⟨rfl, ?_⟩
  cases drawss with
  | nil => exact absurd rfl hs
  | cons d ds => rfl

/-- Witness for C3 (amended) with the default first multiplier and one run. -/
theorem empty_series_fails_downstream_witness :
    group_by_trading_day [] = []
      ∧ calculate_threshold_crossing
          ((group_by_trading_day []).map (fun g => g.2.map Bar.close)) (1/100) 0 [[0]]
          = none :=
  empty_series_fails_downstream [] (1/100) 0 [[0]] rfl (by simp)

/-! ### C9 -/

/-- C9: the final division `good_total / (good_total + bad_total)` is
unguarded: the conditional pipeline raises `ZeroDivisionError` (modelled by
`none`) exactly when no day of any run was classified good or bad, and this
is reached e.g. by a non-empty grouping whose only day has fewer than 2 bars. -/
theorem cond_good_bad_zero_division (groups : List (List ℚ)) (m σ : ℚ)
    (drawss : List (List Nat)) :
    (cond_calculate_threshold_crossing groups m σ drawss = none ↔
      (cond_totals groups m σ drawss).good + (cond_totals groups m σ drawss).bad = 0)
    ∧ cond_calculate_threshold_crossing [[1]] 1 0 [[0]] = none
    ∧ ([[(1 : ℚ)]] : List (List ℚ)) ≠ [] := by
  refine ⟨?_, rfl, by simp⟩
  unfold cond_calculate_threshold_crossing
  by_cases h : (cond_totals groups m σ drawss).good + (cond_totals groups m σ drawss).bad = 0
  · simp [h]
  · simp [h]

/-! ### C10 -/

/-- C10: `group_by_trading_day` mutates its input table by adding the derived
`Date` column before grouping, so the table passed in is not left unchanged;
its rows (and all other columns) are unchanged, and grouping ignores the new
column. -/
theorem group_by_adds_date_column (f : Frame) (h : f.dateCol = none) :
    (group_by_trading_day_frame f).1 ≠ f
      ∧ (group_by_trading_day_frame f).1.bars = f.bars
      ∧ (group_by_trading_day_frame f).1.dateCol = some (f.bars.map dateOf)
      ∧ (group_by_trading_day_frame f).2 = group_by_trading_day f.bars := by
  refine ⟨?_, rfl, rfl, rfl⟩
  intro he
  have h2 : some (f.bars.map dateOf) = f.dateCol := congrArg Frame.dateCol he
  rw [h] at h2
  exact Option.noConfusion h2

/-- Witness for C10 at a one-bar table with no `Date` column. -/
theorem group_by_adds_date_column_witness :
    (group_by_trading_day_frame ⟨[⟨0, 1⟩], none⟩).1 ≠ (⟨[⟨0, 1⟩], none⟩ : Frame)
      ∧ (group_by_trading_day_frame ⟨[⟨0, 1⟩], none⟩).1.bars = [⟨0, 1⟩]
      ∧ (group_by_trading_day_frame ⟨[⟨0, 1⟩], none⟩).1.dateCol
          = some ([(⟨0, 1⟩ : Bar)].map dateOf)
      ∧ (group_by_trading_day_frame ⟨[⟨0, 1⟩], none⟩).2
          = group_by_trading_day [⟨0, 1⟩] :=
  group_by_adds_date_column ⟨[⟨0, 1⟩], none⟩ rfl

/-! ### Helper lemmas for the conditional variant -/

theorem day_tally_partition (day : List ℚ) (r : Nat) (m σ : ℚ) :
    (day_tally day r m σ).good + (day_tally day r m σ).bad
      + (day_tally day r m σ).skipped = 1 := by
  unfold day_tally
  cases h : classify day r m σ <;> simp [h]

theorem cond_run_partition (m σ : ℚ) :
    ∀ (groups : List (List ℚ)) (draws : List Nat),
      (cond_run m σ groups draws).good + (cond_run m σ groups draws).bad
        + (cond_run m σ groups draws).skipped = (groups.filter eligible).length := by
  intro groups
  induction groups with
  | nil => intro draws; rfl
  | cons day rest ih =>
    intro draws
    cases h : eligible day with
    | false =>
      simp only [cond_run, h, List.filter_cons]
      exact ih draws
    | true =>
      simp only [cond_run, h, if_true, List.filter_cons, CondTally.add, List.length_cons]
      have := day_tally_partition day (draws.headD 0) m σ
      have := ih draws.tail
      omega

theorem cond_run_cnt_eq_run_count (m σ : ℚ) :
    ∀ (groups : List (List ℚ)) (draws : List Nat),
      (cond_run m σ groups draws).cnt = run_count m σ groups draws := by
  intro groups
  induction groups with
  | nil => intro draws; rfl
  | cons day rest ih =>
    intro draws
    cases h : eligible day with
    | false => simp only [cond_run, run_count, h]; exact ih draws
    | true =>
      simp only [cond_run, run_count, h, if_true, CondTally.add]
      rw [ih draws.tail]
      rfl

theorem cond_run_pct_eq_run_pct (groups : List (List ℚ)) (m σ : ℚ) (draws : List Nat) :
    cond_run_pct groups m σ draws = run_pct groups m σ draws := by
  unfold cond_run_pct run_pct
  rw [cond_run_cnt_eq_run_count]

theorem cond_totals_good (groups : List (List ℚ)) (m σ : ℚ) :
    ∀ drawss : List (List Nat),
      (cond_totals groups m σ drawss).good
        = (drawss.map (fun d => (cond_run m σ groups d).good)).sum := by
  intro drawss
  induction drawss with
  | nil => rfl
  | cons d ds ih =>
    simp only [cond_totals, List.map_cons, List.foldr_cons, CondTally.add, List.sum_cons]
    rw [← ih]
    rfl

theorem cond_totals_bad (groups : List (List ℚ)) (m σ : ℚ) :
    ∀ drawss : List (List Nat),
      (cond_totals groups m σ drawss).bad
        = (drawss.map (fun d => (cond_run m σ groups d).bad)).sum := by
  intro drawss
  induction drawss with
  | nil => rfl
  | cons d ds ih =>
    simp only [cond_totals, List.map_cons, List.foldr_cons, CondTally.add, List.sum_cons]
    rw [← ih]
    rfl

/-! ### Helper lemmas for the dispersion statistic -/

theorem sum_map_sub_sq (c : ℚ) : ∀ xs : List ℚ,
    (xs.map (fun x => (x - c) ^ 2)).sum
      = (xs.map (fun x => x ^ 2)).sum - 2 * c * xs.sum + (xs.length : ℚ) * c ^ 2 := by
  intro xs
  induction xs with
  | nil => simp
  | cons a t ih =>
    simp only [List.map_cons, List.sum_cons, List.length_cons, ih]
    push_cast
    ring

theorem pop_variance_eq_mean_sq_sub_sq_mean (xs : List ℚ) (h : xs ≠ []) :
    pop_variance xs = mean (xs.map (fun x => x ^ 2)) - mean xs ^ 2 := by
  have hn : (xs.length : ℚ) ≠ 0 := by
    have : xs.length ≠ 0 := fun h0 => h (List.length_eq_zero.mp h0)
    exact_mod_cast this
  unfold pop_variance mean
  rw [sum_map_sub_sq, List.length_map]
  field_simp
  ring

/-! ### C4 -/

/-- C4: in the conditional variant every trial-eligible day is classified as
exactly one of skipped, good, bad — skipped iff the reference price exceeds
the day-start price, otherwise good iff the crossing condition holds and bad
iff it does not — and per run the increments to
`good_total + bad_total + skipped_total` equal the number of trial-eligible
days of that run. -/
theorem cond_classification_partition (groups : List (List ℚ)) (m σ : ℚ)
    (draws : List Nat) (day : List ℚ) (r : Nat) :
    ((cond_run m σ groups draws).good + (cond_run m σ groups draws).bad
        + (cond_run m σ groups draws).skipped = (groups.filter eligible).length)
      ∧ (classify day r m σ = .skipped ↔ day.getD 0 0 < day.getD r 0)
      ∧ (classify day r m σ = .good ↔
          day.getD r 0 ≤ day.getD 0 0 ∧ crossed day r m σ = true)
      ∧ (classify day r m σ = .bad ↔
          day.getD r 0 ≤ day.getD 0 0 ∧ crossed day r m σ = false) := by
  refine ⟨cond_run_partition m σ groups draws, ?_, ?_, ?_⟩ <;> unfold classify
  · constructor
    · intro hcl
      by_contra h1
      rw [if_neg h1] at hcl
      by_cases h2 : crossed day r m σ = true
      · rw [if_pos h2] at hcl; exact TradeOutcome.noConfusion hcl
      · rw [if_neg h2] at hcl; exact TradeOutcome.noConfusion hcl
    · intro h1
      rw [if_pos h1]
  · constructor
    · intro hcl
      by_cases h1 : day.getD 0 0 < day.getD r 0
      · rw [if_pos h1] at hcl; exact TradeOutcome.noConfusion hcl
      · rw [if_neg h1] at hcl
        by_cases h2 : crossed day r m σ = true
        · exact ⟨not_lt.mp h1, h2⟩
        · rw [if_neg h2] at hcl; exact TradeOutcome.noConfusion hcl
    · rintro ⟨hle, h2⟩
      rw [if_neg (not_lt.mpr hle), if_pos h2]
  · constructor
    · intro hcl
      by_cases h1 : day.getD 0 0 < day.getD r 0
      · rw [if_pos h1] at hcl; exact TradeOutcome.noConfusion hcl
      · rw [if_neg h1] at hcl
        by_cases h2 : crossed day r m σ = true
        · rw [if_pos h2] at hcl; exact TradeOutcome.noConfusion hcl
        · exact ⟨not_lt.mp h1, Bool.eq_false_iff.mpr h2⟩
    · rintro ⟨hle, h2⟩
      rw [if_neg (not_lt.mpr hle), if_neg]
      rw [h2]
      exact Bool.false_ne_true

/-! ### C5 -/

/-- C5: the conditional variant's primary estimate equals
`100 × good_total / (good_total + bad_total)` with the good/bad counters
pooled over all runs and days (sums over the runs, not averages of per-run
ratios), while the mean of the unconditional per-run percentages (the same
`(count / total_days) * 100` the first script computes) is reported alongside
as a secondary figure. -/
theorem cond_pooled_good_percentage (groups : List (List ℚ)) (m σ : ℚ)
    (drawss : List (List Nat))
    (h : (cond_totals groups m σ drawss).good + (cond_totals groups m σ drawss).bad ≠ 0) :
    cond_calculate_threshold_crossing groups m σ drawss = some
      { good_pct := 100 * ((drawss.map (fun d => (cond_run m σ groups d).good)).sum : ℚ)
          / (((drawss.map (fun d => (cond_run m σ groups d).good)).sum : ℚ)
             + ((drawss.map (fun d => (cond_run m σ groups d).bad)).sum : ℚ))
        crossed_mean := mean (drawss.map (run_pct groups m σ))
        stdev_sq := overall_stdev_sq groups } := by
  unfold cond_calculate_threshold_crossing
  rw [if_neg h]
  refine congrArg some ?_
  simp only [CondResult.mk.injEq]
  refine ⟨?_, ?_, trivial⟩
  · rw [cond_totals_good, cond_totals_bad]
    ring
  · unfold cond_sim_results
    refine congrArg mean ?_
    exact List.map_congr_left (fun d _ => cond_run_pct_eq_run_pct groups m σ d)

/-- Witness for C5: one run over a single two-bar day classified good. -/
theorem cond_pooled_good_percentage_witness :
    cond_calculate_threshold_crossing [[1, 2]] 0 0 [[0]] = some
      { good_pct := 100 * (([[(0 : Nat)]].map (fun d => (cond_run 0 0 [[1, 2]] d).good)).sum : ℚ)
          / ((([[(0 : Nat)]].map (fun d => (cond_run 0 0 [[1, 2]] d).good)).sum : ℚ)
             + (([[(0 : Nat)]].map (fun d => (cond_run 0 0 [[1, 2]] d).bad)).sum : ℚ))
        crossed_mean := mean ([[(0 : Nat)]].map (run_pct [[1, 2]] 0 0))
        stdev_sq := overall_stdev_sq [[1, 2]] } :=
  cond_pooled_good_percentage [[1, 2]] 0 0 [[0]] (by
    norm_num [cond_totals, cond_run, day_tally, classify, crossed, eligible, day_hit,
      CondTally.add, CondTally.zero])

theorem sqrt_overall_stdev_sq_eq (groups : List (List ℚ)) (h : all_prices groups ≠ []) :
    Real.sqrt ((overall_stdev_sq groups : ℚ) : ℝ)
        = Real.sqrt (((mean ((all_prices groups).map (fun x => x ^ 2)) : ℚ) : ℝ)
            - ((mean (all_prices groups) : ℚ) : ℝ) ^ 2) := by
  have hq := pop_variance_eq_mean_sq_sub_sq_mean (all_prices groups) h
  have hc : ((overall_stdev_sq groups : ℚ) : ℝ)
      = ((mean ((all_prices groups).map (fun x => x ^ 2)) : ℚ) : ℝ)
        - ((mean (all_prices groups) : ℚ) : ℝ) ^ 2 := by
    unfold overall_stdev_sq
    rw [hq, Rat.cast_sub, Rat.cast_pow]
  rw [hc]

theorem calculate_threshold_crossing_cons (g : List ℚ) (gs : List (List ℚ)) (m σ : ℚ)
    (ds : List (List Nat)) :
    calculate_threshold_crossing (g :: gs) m σ ds
      = some (mean (sim_results (g :: gs) m σ ds), overall_stdev_sq (g :: gs)) := rfl

theorem calculate_threshold_crossing_cons_snd (g : List ℚ) (gs : List (List ℚ)) (m σ : ℚ)
    (ds : List (List Nat)) :
    (calculate_threshold_crossing (g :: gs) m σ ds).map Prod.snd
      = some (overall_stdev_sq (g :: gs)) := by
  rw [calculate_threshold_crossing_cons]
  rfl

theorem stdev_component_independent (groups : List (List ℚ)) (m1 m2 σ1 σ2 : ℚ)
    (ds1 ds2 : List (List Nat)) (h : all_prices groups ≠ []) :
    (calculate_threshold_crossing groups m1 σ1 ds1).map Prod.snd
        = (calculate_threshold_crossing groups m2 σ2 ds2).map Prod.snd := by
  have hg : groups ≠ [] := by
    intro hg
    rw [hg] at h
    exact h rfl
  cases groups with
  | nil => exact absurd rfl hg
  | cons g gs =>
    rw [calculate_threshold_crossing_cons_snd, calculate_threshold_crossing_cons_snd]

/-! ### C7 -/

/-- C7: the dispersion statistic is the population standard deviation
(denominator `N`) of the close prices of every bar of every day pooled as one
sample — it satisfies the `sqrt(mean(x²) − mean(x)²)` semantics — and the
dispersion component returned by the pipeline does not depend on the
multiplier, on the threshold dispersion parameter, or on the random draws. -/
theorem dispersion_population_std (groups : List (List ℚ)) (m1 m2 σ1 σ2 : ℚ)
    (ds1 ds2 : List (List Nat)) (h : all_prices groups ≠ []) :
    Real.sqrt ((overall_stdev_sq groups : ℚ) : ℝ)
        = Real.sqrt (((mean ((all_prices groups).map (fun x => x ^ 2)) : ℚ) : ℝ)
            - ((mean (all_prices groups) : ℚ) : ℝ) ^ 2)
      ∧ (calculate_threshold_crossing groups m1 σ1 ds1).map Prod.snd
          = (calculate_threshold_crossing groups m2 σ2 ds2).map Prod.snd :=
  ⟨sqrt_overall_stdev_sq_eq groups h,
   stdev_component_independent groups m1 m2 σ1 σ2 ds1 ds2 h⟩

/-- Witness for C7 at a two-bar day, two different multipliers, dispersion
parameters and draw streams. -/
theorem dispersion_population_std_witness :
    Real.sqrt ((overall_stdev_sq [[1, 2]] : ℚ) : ℝ)
        = Real.sqrt (((mean ((all_prices [[1, 2]]).map (fun x => x ^ 2)) : ℚ) : ℝ)
            - ((mean (all_prices [[1, 2]]) : ℚ) : ℝ) ^ 2)
      ∧ (calculate_threshold_crossing [[1, 2]] 0 0 [[0]]).map Prod.snd
          = (calculate_threshold_crossing [[1, 2]] 1 1 [[0], [0]]).map Prod.snd :=
  dispersion_population_std [[1, 2]] 0 1 0 1 [[0]] [[0], [0]] (by
    simp [all_prices])

/-! ### C8 -/

/-- C8: with day data, dispersion statistic and draw sequences held fixed, a
larger multiplier gives a pointwise smaller-or-equal crossing count, per-run
percentage and mean crossing estimate, for a non-negative dispersion
statistic. -/
theorem crossing_antitone_in_multiplier (groups : List (List ℚ)) (σ m1 m2 : ℚ)
    (draws : List Nat) (drawss : List (List Nat)) (hσ : 0 ≤ σ) (hm : m1 ≤ m2) :
    run_count m2 σ groups draws ≤ run_count m1 σ groups draws
      ∧ run_pct groups m2 σ draws ≤ run_pct groups m1 σ draws
      ∧ mean (sim_results groups m2 σ drawss) ≤ mean (sim_results groups m1 σ drawss) := by
  have hcount := run_count_anti_of_multiplier_le hσ hm groups
  have hpct : ∀ d, run_pct groups m2 σ d ≤ run_pct groups m1 σ d := by
    intro d
    unfold run_pct
    rw [div_eq_mul_inv, div_eq_mul_inv]
    have h1 : (run_count m2 σ groups d : ℚ) ≤ (run_count m1 σ groups d : ℚ) := by
      exact_mod_cast hcount d
    have h2 := mul_le_mul_of_nonneg_right h1
      (inv_nonneg.mpr (Nat.cast_nonneg groups.length))
    exact mul_le_mul_of_nonneg_right h2 (by norm_num)
  refine ⟨hcount draws, hpct draws, ?_⟩
  unfold mean sim_results
  rw [List.length_map, List.length_map, div_eq_mul_inv, div_eq_mul_inv]
  exact mul_le_mul_of_nonneg_right (List.sum_le_sum (fun d _ => hpct d))
    (inv_nonneg.mpr (Nat.cast_nonneg drawss.length))

/-- Witness for C8: multipliers 0 ≤ 1 with dispersion 1 on a two-bar day. -/
theorem crossing_antitone_in_multiplier_witness :
    run_count 1 1 [[1, 2]] [0] ≤ run_count 0 1 [[1, 2]] [0]
      ∧ run_pct [[1, 2]] 1 1 [0] ≤ run_pct [[1, 2]] 0 1 [0]
      ∧ mean (sim_results [[1, 2]] 1 1 [[0]]) ≤ mean (sim_results [[1, 2]] 0 1 [[0]]) :=
  crossing_antitone_in_multiplier [[1, 2]] 1 0 1 [0] [[0]] (by norm_num) (by norm_num)

/-! ### Helper lemmas for the day partition -/

theorem filter_key_eq_takeWhile (k : Bar → Nat) (d : Nat) :
    ∀ l : List Bar, l.Pairwise (fun a b => k a ≤ k b) → (∀ x ∈ l, d ≤ k x) →
      l.filter (fun x => k x = d) = l.takeWhile (fun x => k x = d)
        ∧ ∀ x ∈ l.dropWhile (fun x => k x = d), d < k x := by
  intro l
  induction l with
  | nil => exact fun _ _ => ⟨rfl, by simp⟩
  | cons x xs ih =>
    intro hp hd
    have hxk : d ≤ k x := hd x (List.mem_cons_self x xs)
    rw [List.pairwise_cons] at hp
    obtain ⟨hx, hxs⟩ := hp
    by_cases hcase : k x = d
    · have hrec := ih hxs (fun y hy => hd y (List.mem_cons_of_mem x hy))
      refine ⟨?_, ?_⟩
      · rw [List.filter_cons, List.takeWhile_cons, if_pos (decide_eq_true hcase),
          if_pos (decide_eq_true hcase), hrec.1]
      · rw [List.dropWhile_cons, if_pos (decide_eq_true hcase)]
        exact hrec.2
    · have hlt : d < k x := lt_of_le_of_ne hxk (fun he => hcase he.symm)
      have hfneg : ¬((fun y => decide (k y = d)) x = true) := by
        simp only [decide_eq_true_eq]
        exact hcase
      have hall : ∀ y ∈ x :: xs, d < k y := by
        intro y hy
        rcases List.mem_cons.mp hy with h | h
        · rw [h]; exact hlt
        · exact lt_of_lt_of_le hlt (hx y h)
      refine ⟨?_, ?_⟩
      · rw [List.filter_cons, List.takeWhile_cons, if_neg hfneg, if_neg hfneg]
        rw [List.filter_eq_nil_iff]
        intro y hy
        simp only [decide_eq_true_eq]
        exact Nat.ne_of_gt (hall y (List.mem_cons_of_mem x hy))
      · rw [List.dropWhile_cons, if_neg hfneg]
        exact hall

theorem concat_groups_eq (k : Bar → Nat) :
    ∀ (ks : List Nat) (l : List Bar),
      ks.Pairwise (· < ·) →
      l.Pairwise (fun a b => k a ≤ k b) →
      (∀ x ∈ l, k x ∈ ks) →
      concatDays (ks.map (fun d => (d, l.filter (fun x => k x = d)))) = l := by
  intro ks
  induction ks with
  | nil =>
    intro l _ _ hcov
    cases l with
    | nil => rfl
    | cons x xs => exact absurd (hcov x (List.mem_cons_self x xs)) (List.not_mem_nil _)
  | cons d ks2 ih =>
    intro l hks hl hcov
    rw [List.pairwise_cons] at hks
    obtain ⟨hdlt, hks2⟩ := hks
    have hge : ∀ x ∈ l, d ≤ k x := by
      intro x hx
      rcases List.mem_cons.mp (hcov x hx) with h | h
      · exact le_of_eq h.symm
      · exact le_of_lt (hdlt _ h)
    obtain ⟨hft, hdw⟩ := filter_key_eq_takeWhile k d l hl hge
    show l.filter (fun x => k x = d)
        ++ concatDays (ks2.map (fun e => (e, l.filter (fun x => k x = e)))) = l
    have htail : ∀ e ∈ ks2, l.filter (fun x => k x = e)
        = (l.dropWhile (fun x => k x = d)).filter (fun x => k x = e) := by
      intro e he
      conv_lhs => rw [← List.takeWhile_append_dropWhile (fun x => decide (k x = d)) l]
      rw [List.filter_append]
      have hnil : (l.takeWhile (fun x => k x = d)).filter (fun x => k x = e) = [] := by
        rw [List.filter_eq_nil_iff]
        intro y hy
        have hkd2 := @List.mem_takeWhile_imp Bar (fun x => decide (k x = d)) l y hy
        have hkd : k y = d := of_decide_eq_true hkd2
        simp only [decide_eq_true_eq]
        intro hke
        have hde : d = e := (hkd.symm.trans hke : d = e)
        exact absurd (hde ▸ hdlt e he) (lt_irrefl e)
      rw [hnil, List.nil_append]
    have hmap : ks2.map (fun e => (e, l.filter (fun x => k x = e)))
        = ks2.map (fun e => (e, (l.dropWhile (fun x => k x = d)).filter (fun x => k x = e))) :=
      List.map_congr_left (fun e he => by rw [htail e he])
    rw [hmap]
    have hcov2 : ∀ x ∈ l.dropWhile (fun y => k y = d), k x ∈ ks2 := by
      intro x hx
      have hxl : x ∈ l := (List.dropWhile_sublist _).subset hx
      rcases List.mem_cons.mp (hcov x hxl) with h | h
      · exact absurd h (Nat.ne_of_gt (hdw x hx))
      · exact h
    rw [ih (l.dropWhile (fun y => k y = d)) hks2
      (List.Pairwise.sublist (List.dropWhile_sublist _) hl) hcov2]
    rw [hft]
    exact List.takeWhile_append_dropWhile _ _

/-! ### C6 -/

/-- C6: for a series of at least one bar with strictly increasing timestamps,
day partitioning is a lossless partition: concatenating the per-day bar lists
in date order reconstructs the original bar sequence exactly (intra-day order
preserved as received), and every bar belongs to exactly one trading day. -/
theorem group_by_trading_day_lossless (data : List Bar)
    (hchron : data.Pairwise (fun a b => a.ts < b.ts)) (hne : data ≠ []) :
    concatDays (group_by_trading_day data) = data
      ∧ ∀ b ∈ data,
          (group_by_trading_day data).countP (fun g => decide (b ∈ g.2)) = 1 := by
  have hperm : (List.insertionSort (· ≤ ·) (data.map dateOf).dedup).Perm
      (data.map dateOf).dedup := List.perm_insertionSort _ _
  have hnodup : (List.insertionSort (· ≤ ·) (data.map dateOf).dedup).Nodup :=
    hperm.symm.nodup (List.nodup_dedup _)
  have hsorted : (List.insertionSort (· ≤ ·) (data.map dateOf).dedup).Sorted (· ≤ ·) :=
    List.sorted_insertionSort _ _
  have hklt : (List.insertionSort (· ≤ ·) (data.map dateOf).dedup).Pairwise (· < ·) :=
    List.Pairwise.imp (fun h => lt_of_le_of_ne h.1 h.2) (hsorted.and hnodup)
  have hkeys : data.Pairwise (fun a b => dateOf a ≤ dateOf b) :=
    hchron.imp (fun h => Nat.div_le_div_right (le_of_lt h))
  have hcov : ∀ x ∈ data, dateOf x ∈ List.insertionSort (· ≤ ·) (data.map dateOf).dedup :=
    fun x hx => hperm.mem_iff.mpr (List.mem_dedup.mpr (List.mem_map_of_mem dateOf hx))
  constructor
  · exact concat_groups_eq dateOf _ data hklt hkeys hcov
  · intro b hb
    unfold group_by_trading_day
    rw [List.countP_map]
    have h2 : (List.insertionSort (· ≤ ·) (data.map dateOf).dedup).countP
        ((fun g : Nat × List Bar => decide (b ∈ g.2))
          ∘ (fun d => (d, data.filter (fun x => dateOf x = d))))
        = (List.insertionSort (· ≤ ·) (data.map dateOf).dedup).countP
            (fun d => d == dateOf b) := by
      apply List.countP_congr
      intro d hd
      simp only [Function.comp_apply, decide_eq_true_eq, beq_iff_eq]
      constructor
      · intro hmem
        obtain ⟨-, hdec⟩ := List.mem_filter.mp hmem
        exact (of_decide_eq_true hdec).symm
      · intro hde
        exact List.mem_filter.mpr ⟨hb, decide_eq_true hde.symm⟩
    rw [h2, ← List.count_eq_countP]
    exact List.count_eq_one_of_mem hnodup (hcov b hb)

/-- Witness for C6 at a three-bar series spanning two calendar dates. -/
theorem group_by_trading_day_lossless_witness :
    concatDays (group_by_trading_day [⟨0, 1⟩, ⟨5, 2⟩, ⟨30, 3⟩])
        = [⟨0, 1⟩, ⟨5, 2⟩, ⟨30, 3⟩]
      ∧ ∀ b ∈ ([⟨0, 1⟩, ⟨5, 2⟩, ⟨30, 3⟩] : List Bar),
          (group_by_trading_day [⟨0, 1⟩, ⟨5, 2⟩, ⟨30, 3⟩]).countP
            (fun g => decide (b ∈ g.2)) = 1 :=
  group_by_trading_day_lossless [⟨0, 1⟩, ⟨5, 2⟩, ⟨30, 3⟩]
    (by decide) (by decide)

end StockCalc
